import Mathlib

/-!
Verification of the bracket-sequence validator in `src/bracketex/solver.cpp`.

The program reads a length `N` and a string of bracket characters, scans the
first `N` characters while maintaining a stack of open-bracket types, and
prints `Valid` or `Invalid`. The definitions below are a shallow embedding of
that source file: the classifier functions `bracket_type` and `bracket_state`
keep their source names and if-chains (their fall-through paths, which return
no value in C++, are modelled as `none`), the main loop becomes the
stack-passing function `scanStack` (`none` models the early `return` printing
`Invalid`), and `run` models `main`'s loop `for index in [0, length)` over
`brackets[index]` by scanning `brackets.take length`.
-/

set_option autoImplicit false

/-- Bracket type tags, mirroring `typedef uint8_t bracket_t` with
`#define CURLY 0`, `#define SQUARE 1`, `#define ROUND 2` in the source.
The stored values are only ever 0, 1, 2, so `Nat` is a faithful carrier. -/
abbrev bracket_t := Nat

abbrev CURLY : bracket_t := 0
abbrev SQUARE : bracket_t := 1
abbrev ROUND : bracket_t := 2

/-- Bracket state, mirroring `typedef bool state_t` with
`#define OPEN true`, `#define CLOSE false`. -/
abbrev state_t := Bool

abbrev OPEN : state_t := true
abbrev CLOSE : state_t := false

/-- The classifier `bracket_type` from the source: the same if-chain, with the
C++ fall-through (no `return` executed for a non-bracket character) modelled
as `none`. -/
def bracket_type (bracket : Char) : Option bracket_t :=
  if bracket = '}' ∨ bracket = '{' then some CURLY
  else if bracket = ']' ∨ bracket = '[' then some SQUARE
  else if bracket = ')' ∨ bracket = '(' then some ROUND
  else none

/-- The classifier `bracket_state` from the source: the same if-chain, with
the C++ fall-through modelled as `none`. -/
def bracket_state (bracket : Char) : Option state_t :=
  if bracket = '}' ∨ bracket = ')' ∨ bracket = ']' then some CLOSE
  else if bracket = '{' ∨ bracket = '(' ∨ bracket = '[' then some OPEN
  else none

/-- The six bracket glyphs the spec constrains inputs to. -/
def bracketGlyphs : List Char := ['{', '}', '[', ']', '(', ')']

/-- The opening glyph of each bracket type (inverse of `bracket_type` on
opening characters, for the three valid tags). -/
def openChar (t : bracket_t) : Char :=
  if t = CURLY then '{' else if t = SQUARE then '[' else '('

/-- The closing glyph of each bracket type (inverse of `bracket_type` on
closing characters, for the three valid tags). -/
def closeChar (t : bracket_t) : Char :=
  if t = CURLY then '}' else if t = SQUARE then ']' else ')'

/-- The two possible printed outputs of the program. -/
inductive Verdict where
  | valid
  | invalid
  deriving DecidableEq, Repr

/-- The state evolution of `main`'s loop: scan the characters in order,
maintaining the `open_brackets` stack (head = top of the C++ `std::stack`).
`none` models the early `return 0` after printing `Invalid` (empty stack or
type mismatch on a closing bracket); `some stk` means the loop ran to the end
of the character list with final stack `stk`. A character on which the
classifiers fall through is neither `OPEN` nor `CLOSE`, so the loop body does
nothing with it. -/
def scanStack : List Char → List bracket_t → Option (List bracket_t)
  | [], stk => some stk
  | c :: rest, stk =>
    match bracket_state c, bracket_type c with
    | some true, some t => scanStack rest (t :: stk)
    | some false, some t =>
      match stk with
      | [] => none
      | top :: stk2 => if t = top then scanStack rest stk2 else none
    | _, _ => scanStack rest stk

/-- The verdict of `main` on a character list: `Invalid` on a short-circuit,
otherwise `Valid` exactly when the final stack is empty. -/
def scan (cs : List Char) (stk : List bracket_t) : Verdict :=
  match scanStack cs stk with
  | none => Verdict.invalid
  | some s => if s = [] then Verdict.valid else Verdict.invalid

/-- The whole program: `main` loops `for index in [0, length)` over
`brackets[index]`, i.e. it examines exactly the first `length` characters,
modelled by `List.take`, starting from an empty stack. -/
def run (length : Nat) (brackets : List Char) : Verdict :=
  scan (brackets.take length) []

/-- The number of loop iterations the scan performs (characters examined)
before returning: a short-circuiting closing bracket is the last character
examined. -/
def scanSteps : List Char → List bracket_t → Nat
  | [], _ => 0
  | c :: rest, stk =>
    match bracket_state c, bracket_type c with
    | some true, some t => scanSteps rest (t :: stk) + 1
    | some false, some t =>
      match stk with
      | [] => 1
      | top :: stk2 => if t = top then scanSteps rest stk2 + 1 else 1
    | _, _ => scanSteps rest stk + 1

/-- Modelled from the spec: a non-short-circuiting full-scan reference
validator ("a non-short-circuiting implementation that still produces the
same final verdict"). It processes every character, records a failure flag
instead of returning early, and only reports the verdict at the end. -/
def fullScan : List Char → List bracket_t → Bool → Verdict
  | [], stk, failed =>
    if failed then Verdict.invalid
    else if stk = [] then Verdict.valid else Verdict.invalid
  | c :: rest, stk, failed =>
    match bracket_state c, bracket_type c with
    | some true, some t => fullScan rest (t :: stk) failed
    | some false, some t =>
      match stk with
      | [] => fullScan rest [] true
      | top :: stk2 =>
        if t = top then fullScan rest stk2 failed else fullScan rest stk2 true
    | _, _ => fullScan rest stk failed

/-- Modelled from the spec: the full-scan reference on the program's input
convention (length prefix, empty initial stack, no failure yet). -/
def fullRun (length : Nat) (brackets : List Char) : Verdict :=
  fullScan (brackets.take length) [] false

/-- Balanced bracket sequences: the standard inductive (Dyck) definition over
the six glyphs. A sequence is balanced when it is empty or is an opening
glyph, a balanced inner part, the matching closing glyph, and a balanced
remainder. This is the spec side of claim C1 and is independent of the scan. -/
inductive BalancedSeq : List Char → Prop where
  | nil : BalancedSeq []
  | curly (inner rest : List Char) :
      BalancedSeq inner → BalancedSeq rest → BalancedSeq ('{' :: inner ++ '}' :: rest)
  | square (inner rest : List Char) :
      BalancedSeq inner → BalancedSeq rest → BalancedSeq ('[' :: inner ++ ']' :: rest)
  | round (inner rest : List Char) :
      BalancedSeq inner → BalancedSeq rest → BalancedSeq ('(' :: inner ++ ')' :: rest)

/-- Spec-side description of the currently-unclosed brackets of a prefix:
`Unclosed p stk` holds when `p` decomposes as balanced chunks separated by
the opening glyphs of the types in `stk`, listed bottom-up; `stk`'s head is
then the type of the innermost (most recently) opened bracket. -/
inductive Unclosed : List Char → List bracket_t → Prop where
  | base (b : List Char) : BalancedSeq b → Unclosed b []
  | step (b p : List Char) (stk : List bracket_t) (t : bracket_t) :
      t = CURLY ∨ t = SQUARE ∨ t = ROUND →
      BalancedSeq b → Unclosed p stk → Unclosed (b ++ openChar t :: p) (stk ++ [t])

/-! ### Classifier facts -/

/-- Every character is either unclassified by both classifiers, or an opening
glyph of a valid type, or a closing glyph of a valid type. -/
theorem classify_cases (c : Char) :
    (bracket_state c = none ∧ bracket_type c = none)
    ∨ (∃ t, (t = CURLY ∨ t = SQUARE ∨ t = ROUND) ∧ bracket_state c = some OPEN
        ∧ bracket_type c = some t ∧ c = openChar t)
    ∨ (∃ t, (t = CURLY ∨ t = SQUARE ∨ t = ROUND) ∧ bracket_state c = some CLOSE
        ∧ bracket_type c = some t ∧ c = closeChar t) := by
  by_cases h1 : c = '{'
  · subst h1; exact Or.inr (Or.inl ⟨CURLY, by decide⟩)
  by_cases h2 : c = '}'
  · subst h2; exact Or.inr (Or.inr ⟨CURLY, by decide⟩)
  by_cases h3 : c = '['
  · subst h3; exact Or.inr (Or.inl ⟨SQUARE, by decide⟩)
  by_cases h4 : c = ']'
  · subst h4; exact Or.inr (Or.inr ⟨SQUARE, by decide⟩)
  by_cases h5 : c = '('
  · subst h5; exact Or.inr (Or.inl ⟨ROUND, by decide⟩)
  by_cases h6 : c = ')'
  · subst h6; exact Or.inr (Or.inr ⟨ROUND, by decide⟩)
  exact Or.inl (by simp [bracket_state, bracket_type, h1, h2, h3, h4, h5, h6])

/-- For a valid type tag, `openChar t` classifies as an opener of type `t`. -/
theorem openChar_classify {t : bracket_t} (ht : t = CURLY ∨ t = SQUARE ∨ t = ROUND) :
    bracket_state (openChar t) = some OPEN ∧ bracket_type (openChar t) = some t := by
  rcases ht with h | h | h <;> subst h <;> exact ⟨by decide, by decide⟩

/-- For a valid type tag, `closeChar t` classifies as a closer of type `t`. -/
theorem closeChar_classify {t : bracket_t} (ht : t = CURLY ∨ t = SQUARE ∨ t = ROUND) :
    bracket_state (closeChar t) = some CLOSE ∧ bracket_type (closeChar t) = some t := by
  rcases ht with h | h | h <;> subst h <;> exact ⟨by decide, by decide⟩

/-! ### Unfolding lemmas for the scan -/

theorem scanStack_nil (stk : List bracket_t) : scanStack [] stk = some stk := rfl

theorem scanStack_cons_open {c : Char} {t : bracket_t}
    (hs : bracket_state c = some OPEN) (ht : bracket_type c = some t)
    (rest : List Char) (stk : List bracket_t) :
    scanStack (c :: rest) stk = scanStack rest (t :: stk) := by
  simp [scanStack, hs, ht]

theorem scanStack_cons_close_nil {c : Char} {t : bracket_t}
    (hs : bracket_state c = some CLOSE) (ht : bracket_type c = some t)
    (rest : List Char) :
    scanStack (c :: rest) [] = none := by
  simp [scanStack, hs, ht]

theorem scanStack_cons_close_match {c : Char} {t : bracket_t}
    (hs : bracket_state c = some CLOSE) (ht : bracket_type c = some t)
    (rest : List Char) (stk : List bracket_t) :
    scanStack (c :: rest) (t :: stk) = scanStack rest stk := by
  simp [scanStack, hs, ht]

theorem scanStack_cons_close_mismatch {c : Char} {t top : bracket_t}
    (hs : bracket_state c = some CLOSE) (ht : bracket_type c = some t)
    (hne : t ≠ top) (rest : List Char) (stk : List bracket_t) :
    scanStack (c :: rest) (top :: stk) = none := by
  simp [scanStack, hs, ht, hne]

theorem scanStack_cons_skip {c : Char}
    (hs : bracket_state c = none) (ht : bracket_type c = none)
    (rest : List Char) (stk : List bracket_t) :
    scanStack (c :: rest) stk = scanStack rest stk := by
  simp [scanStack, hs, ht]

/-! ### Composition and frame properties of the scan -/

/-- Scanning a concatenation is scanning the first part and continuing with
the resulting stack. -/
theorem scanStack_append (xs ys : List Char) : ∀ stk : List bracket_t,
    scanStack (xs ++ ys) stk = (scanStack xs stk).bind (scanStack ys) := by
  induction xs with
  | nil => intro stk; rfl
  | cons c rest ih =>
    intro stk
    rcases classify_cases c with ⟨hs, ht⟩ | ⟨t, htv, hs, ht, hc⟩ | ⟨t, htv, hs, ht, hc⟩
    · rw [List.cons_append, scanStack_cons_skip hs ht, scanStack_cons_skip hs ht, ih]
    · rw [List.cons_append, scanStack_cons_open hs ht, scanStack_cons_open hs ht, ih]
    · cases stk with
      | nil =>
        rw [List.cons_append, scanStack_cons_close_nil hs ht,
          scanStack_cons_close_nil hs ht]
        rfl
      | cons top stk2 =>
        by_cases heq : t = top
        · subst heq
          rw [List.cons_append, scanStack_cons_close_match hs ht,
            scanStack_cons_close_match hs ht, ih]
        · rw [List.cons_append, scanStack_cons_close_mismatch hs ht heq,
            scanStack_cons_close_mismatch hs ht heq]
          rfl

/-- A scan that completes never inspects stack entries below its starting
point, so extra entries at the bottom of the stack are carried through. -/
theorem scanStack_frame (xs : List Char) : ∀ (stk0 stk res : List bracket_t),
    scanStack xs stk0 = some res → scanStack xs (stk0 ++ stk) = some (res ++ stk) := by
  induction xs with
  | nil =>
    intro stk0 stk res h
    rw [scanStack_nil] at h
    injection h with h2
    subst h2
    rfl
  | cons c rest ih =>
    intro stk0 stk res h
    rcases classify_cases c with ⟨hs, ht⟩ | ⟨t, htv, hs, ht, hc⟩ | ⟨t, htv, hs, ht, hc⟩
    · rw [scanStack_cons_skip hs ht] at h ⊢
      exact ih _ _ _ h
    · rw [scanStack_cons_open hs ht] at h ⊢
      exact ih (t :: stk0) stk res h
    · cases stk0 with
      | nil =>
        rw [scanStack_cons_close_nil hs ht] at h
        exact Option.noConfusion h
      | cons top stk2 =>
        by_cases heq : t = top
        · subst heq
          rw [scanStack_cons_close_match hs ht] at h
          rw [List.cons_append, scanStack_cons_close_match hs ht]
          exact ih _ _ _ h
        · rw [scanStack_cons_close_mismatch hs ht heq] at h
          exact Option.noConfusion h

/-- Special case of the frame property: a chunk that scans from the empty
stack back to the empty stack leaves any stack unchanged. -/
theorem scanStack_push (xs : List Char) (stk : List bracket_t)
    (h : scanStack xs [] = some []) : scanStack xs stk = some stk := by
  simpa using scanStack_frame xs [] stk [] h

/-! ### Balanced sequences and the scan -/

/-- A balanced chunk scanned from the empty stack completes with the empty
stack. -/
theorem balanced_scanStack : ∀ {b : List Char}, BalancedSeq b → scanStack b [] = some [] := by
  intro b hb
  induction hb with
  | nil => rfl
  | curly inner rest h1 h2 ih1 ih2 =>
    rw [List.cons_append, scanStack_cons_open (c := '{') (t := CURLY) (by decide) (by decide),
      scanStack_append, scanStack_push inner [CURLY] ih1]
    show scanStack ('}' :: rest) [CURLY] = some []
    rw [scanStack_cons_close_match (c := '}') (t := CURLY) (by decide) (by decide)]
    exact ih2
  | square inner rest h1 h2 ih1 ih2 =>
    rw [List.cons_append, scanStack_cons_open (c := '[') (t := SQUARE) (by decide) (by decide),
      scanStack_append, scanStack_push inner [SQUARE] ih1]
    show scanStack (']' :: rest) [SQUARE] = some []
    rw [scanStack_cons_close_match (c := ']') (t := SQUARE) (by decide) (by decide)]
    exact ih2
  | round inner rest h1 h2 ih1 ih2 =>
    rw [List.cons_append, scanStack_cons_open (c := '(') (t := ROUND) (by decide) (by decide),
      scanStack_append, scanStack_push inner [ROUND] ih1]
    show scanStack (')' :: rest) [ROUND] = some []
    rw [scanStack_cons_close_match (c := ')') (t := ROUND) (by decide) (by decide)]
    exact ih2

/-- Balanced sequences are closed under concatenation. -/
theorem BalancedSeq.append : ∀ {x y : List Char},
    BalancedSeq x → BalancedSeq y → BalancedSeq (x ++ y) := by
  intro x y hx hy
  induction hx with
  | nil => simpa using hy
  | curly inner rest h1 h2 ih1 ih2 => simpa using BalancedSeq.curly inner (rest ++ y) h1 ih2
  | square inner rest h1 h2 ih1 ih2 => simpa using BalancedSeq.square inner (rest ++ y) h1 ih2
  | round inner rest h1 h2 ih1 ih2 => simpa using BalancedSeq.round inner (rest ++ y) h1 ih2

/-- The three node constructors of `BalancedSeq`, packaged over a valid type
tag via `openChar` and `closeChar`. -/
theorem BalancedSeq.node {t : bracket_t} (ht : t = CURLY ∨ t = SQUARE ∨ t = ROUND)
    {i r : List Char} (hi : BalancedSeq i) (hr : BalancedSeq r) :
    BalancedSeq (openChar t :: i ++ closeChar t :: r) := by
  rcases ht with h | h | h <;> subst h
  · simpa [openChar, closeChar] using BalancedSeq.curly i r hi hr
  · simpa [openChar, closeChar] using BalancedSeq.square i r hi hr
  · simpa [openChar, closeChar] using BalancedSeq.round i r hi hr

/-- Decomposition of a completed scan over a pushed entry: either the pushed
type `t` is eventually popped by its matching closing glyph, splitting the
input into the part scanned above `t` and the remainder, or `t` is never
popped and the scan from the empty stack yields the part of the final stack
that sits above it. -/
theorem scanStack_pop_decomp :
    ∀ (n : Nat) (cs : List Char) (t : bracket_t) (stk0 res : List bracket_t),
    cs.length ≤ n → scanStack cs (t :: stk0) = some res →
    (∃ inner rest, cs = inner ++ closeChar t :: rest ∧ scanStack inner [] = some []
        ∧ scanStack rest stk0 = some res)
    ∨ (∃ pre, scanStack cs [] = some pre ∧ res = pre ++ t :: stk0) := by
  intro n
  induction n with
  | zero =>
    intro cs t stk0 res hlen h
    have hcs : cs = [] := List.length_eq_zero.mp (Nat.le_zero.mp hlen)
    subst hcs
    rw [scanStack_nil] at h
    injection h with h2
    subst h2
    exact Or.inr ⟨[], rfl, rfl⟩
  | succ n ih =>
    intro cs t stk0 res hlen h
    cases cs with
    | nil =>
      rw [scanStack_nil] at h
      injection h with h2
      subst h2
      exact Or.inr ⟨[], rfl, rfl⟩
    | cons c cs2 =>
      have hlen2 : cs2.length ≤ n := by simpa using hlen
      rcases classify_cases c with ⟨hs, ht⟩ | ⟨u, huv, hs, ht, hc⟩ | ⟨u, huv, hs, ht, hc⟩
      · -- the classifiers fall through: the loop body does nothing
        rw [scanStack_cons_skip hs ht] at h
        rcases ih cs2 t stk0 res hlen2 h with
          ⟨inner, rest, heq, hinner, hrest⟩ | ⟨pre, hpre, hres⟩
        · refine Or.inl ⟨c :: inner, rest, ?_, ?_, hrest⟩
          · rw [heq, List.cons_append]
          · rw [scanStack_cons_skip hs ht]
            exact hinner
        · refine Or.inr ⟨pre, ?_, hres⟩
          rw [scanStack_cons_skip hs ht]
          exact hpre
      · -- an opening bracket of type u is pushed
        rw [scanStack_cons_open hs ht] at h
        rcases ih cs2 u (t :: stk0) res hlen2 h with
          ⟨inner1, rest1, heq1, hinner1, hrest1⟩ | ⟨pre, hpre, hres⟩
        · have hlen3 : rest1.length ≤ n := by
            have h5 := congrArg List.length heq1
            simp at h5
            omega
          rcases ih rest1 t stk0 res hlen3 hrest1 with
            ⟨inner2, rest2, heq2, hinner2, hrest2⟩ | ⟨pre2, hpre2, hres2⟩
          · -- u is closed inside, and later t is closed as well
            refine Or.inl ⟨c :: inner1 ++ closeChar u :: inner2, rest2, ?_, ?_, hrest2⟩
            · rw [heq1, heq2]
              simp
            · rw [List.cons_append, scanStack_cons_open hs ht, scanStack_append,
                scanStack_push inner1 [u] hinner1]
              show scanStack (closeChar u :: inner2) [u] = some []
              rw [scanStack_cons_close_match (closeChar_classify huv).1
                (closeChar_classify huv).2]
              exact hinner2
          · -- u is closed inside but t never is
            refine Or.inr ⟨pre2, ?_, hres2⟩
            rw [scanStack_cons_open hs ht, heq1, scanStack_append,
              scanStack_push inner1 [u] hinner1]
            show scanStack (closeChar u :: rest1) [u] = some pre2
            rw [scanStack_cons_close_match (closeChar_classify huv).1
              (closeChar_classify huv).2]
            exact hpre2
        · -- neither u nor t is ever popped
          refine Or.inr ⟨pre ++ [u], ?_, ?_⟩
          · rw [scanStack_cons_open hs ht]
            simpa using scanStack_frame cs2 [] [u] pre hpre
          · rw [hres]
            simp
      · -- a closing bracket of type u meets stack top t
        by_cases hu : u = t
        · subst hu
          rw [scanStack_cons_close_match hs ht] at h
          refine Or.inl ⟨[], cs2, ?_, rfl, h⟩
          rw [hc]
          rfl
        · rw [scanStack_cons_close_mismatch hs ht hu] at h
          exact Option.noConfusion h

/-- A balanced chunk may be prepended to any unclosed decomposition. -/
theorem unclosed_cons_balanced {b p : List Char} {stk : List bracket_t}
    (hb : BalancedSeq b) (hp : Unclosed p stk) : Unclosed (b ++ p) stk := by
  induction hp with
  | base b2 hb2 => exact Unclosed.base (b ++ b2) (hb.append hb2)
  | step b2 p2 stk2 t htv hb2 hp2 ih =>
    have h3 := Unclosed.step (b ++ b2) p2 stk2 t htv (hb.append hb2) hp2
    simpa [List.append_assoc] using h3

/-- An unclosed decomposition replays as a completed scan whose final stack
is the listed types. -/
theorem unclosed_scanStack : ∀ {p : List Char} {stk : List bracket_t},
    Unclosed p stk → scanStack p [] = some stk := by
  intro p stk h
  induction h with
  | base b hb => exact balanced_scanStack hb
  | step b p2 stk2 t htv hb hp ih =>
    rw [scanStack_append, balanced_scanStack hb]
    show scanStack (openChar t :: p2) [] = some (stk2 ++ [t])
    rw [scanStack_cons_open (openChar_classify htv).1 (openChar_classify htv).2]
    simpa using scanStack_frame p2 [] [t] stk2 ih

/-- If the whole input is bracket glyphs and the scan completes with an empty
stack, the input is a balanced sequence. -/
theorem scanStack_complete :
    ∀ (n : Nat) (cs : List Char), cs.length ≤ n → (∀ c ∈ cs, c ∈ bracketGlyphs) →
    scanStack cs [] = some [] → BalancedSeq cs := by
  intro n
  induction n with
  | zero =>
    intro cs hlen hg h
    have hcs : cs = [] := List.length_eq_zero.mp (Nat.le_zero.mp hlen)
    subst hcs
    exact BalancedSeq.nil
  | succ n ih =>
    intro cs hlen hg h
    cases cs with
    | nil => exact BalancedSeq.nil
    | cons c cs2 =>
      have hlen2 : cs2.length ≤ n := by simpa using hlen
      rcases classify_cases c with ⟨hs, ht⟩ | ⟨u, huv, hs, ht, hc⟩ | ⟨u, huv, hs, ht, hc⟩
      · exfalso
        have hcg : c ∈ bracketGlyphs := hg c (List.mem_cons_self c cs2)
        fin_cases hcg <;> simp [bracket_state] at hs
      · rw [scanStack_cons_open hs ht] at h
        rcases scanStack_pop_decomp n cs2 u [] [] hlen2 h with
          ⟨inner, rest, heq, hinner, hrest⟩ | ⟨pre, hpre, hres⟩
        · have h5 := congrArg List.length heq
          simp at h5
          have hgi : ∀ x ∈ inner, x ∈ bracketGlyphs := fun x hx =>
            hg x (by rw [heq]; exact List.mem_cons_of_mem _ (List.mem_append_left _ hx))
          have hgr : ∀ x ∈ rest, x ∈ bracketGlyphs := fun x hx =>
            hg x (by
              rw [heq]
              exact List.mem_cons_of_mem _
                (List.mem_append_right _ (List.mem_cons_of_mem _ hx)))
          have hbi : BalancedSeq inner := ih inner (by omega) hgi hinner
          have hbr : BalancedSeq rest := ih rest (by omega) hgr hrest
          have h6 := BalancedSeq.node huv hbi hbr
          rw [hc, heq]
          simpa using h6
        · simp at hres
      · rw [scanStack_cons_close_nil hs ht] at h
        exact Option.noConfusion h

/-- If the whole input is bracket glyphs and the scan completes, the final
stack is exactly the unclosed-bracket description of the consumed input. -/
theorem scanStack_to_unclosed :
    ∀ (n : Nat) (p : List Char) (stk : List bracket_t), p.length ≤ n →
    (∀ c ∈ p, c ∈ bracketGlyphs) → scanStack p [] = some stk → Unclosed p stk := by
  intro n
  induction n with
  | zero =>
    intro p stk hlen hg h
    have hp : p = [] := List.length_eq_zero.mp (Nat.le_zero.mp hlen)
    subst hp
    rw [scanStack_nil] at h
    injection h with h2
    subst h2
    exact Unclosed.base [] BalancedSeq.nil
  | succ n ih =>
    intro p stk hlen hg h
    cases p with
    | nil =>
      rw [scanStack_nil] at h
      injection h with h2
      subst h2
      exact Unclosed.base [] BalancedSeq.nil
    | cons c p2 =>
      have hlen2 : p2.length ≤ n := by simpa using hlen
      rcases classify_cases c with ⟨hs, ht⟩ | ⟨u, huv, hs, ht, hc⟩ | ⟨u, huv, hs, ht, hc⟩
      · exfalso
        have hcg : c ∈ bracketGlyphs := hg c (List.mem_cons_self c p2)
        fin_cases hcg <;> simp [bracket_state] at hs
      · rw [scanStack_cons_open hs ht] at h
        rcases scanStack_pop_decomp n p2 u [] stk hlen2 h with
          ⟨inner, rest, heq, hinner, hrest⟩ | ⟨pre, hpre, hres⟩
        · have h5 := congrArg List.length heq
          simp at h5
          have hgi : ∀ x ∈ inner, x ∈ bracketGlyphs := fun x hx =>
            hg x (by rw [heq]; exact List.mem_cons_of_mem _ (List.mem_append_left _ hx))
          have hgr : ∀ x ∈ rest, x ∈ bracketGlyphs := fun x hx =>
            hg x (by
              rw [heq]
              exact List.mem_cons_of_mem _
                (List.mem_append_right _ (List.mem_cons_of_mem _ hx)))
          have hbi : BalancedSeq inner := scanStack_complete n inner (by omega) hgi hinner
          have hur : Unclosed rest stk := ih rest stk (by omega) hgr hrest
          have hb : BalancedSeq (openChar u :: inner ++ closeChar u :: ([] : List Char)) :=
            BalancedSeq.node huv hbi BalancedSeq.nil
          have h6 := unclosed_cons_balanced hb hur
          rw [hc, heq]
          simpa using h6
        · have hup : Unclosed p2 pre :=
            ih p2 pre hlen2 (fun x hx => hg x (List.mem_cons_of_mem _ hx)) hpre
          have h6 := Unclosed.step [] p2 pre u huv BalancedSeq.nil hup
          rw [hc, hres]
          simpa using h6
      · rw [scanStack_cons_close_nil hs ht] at h
        exact Option.noConfusion h

/-! ### The full-scan reference and the step count -/

theorem fullScan_cons_open {c : Char} {t : bracket_t}
    (hs : bracket_state c = some OPEN) (ht : bracket_type c = some t)
    (rest : List Char) (stk : List bracket_t) (failed : Bool) :
    fullScan (c :: rest) stk failed = fullScan rest (t :: stk) failed := by
  simp [fullScan, hs, ht]

theorem fullScan_cons_close_nil {c : Char} {t : bracket_t}
    (hs : bracket_state c = some CLOSE) (ht : bracket_type c = some t)
    (rest : List Char) (failed : Bool) :
    fullScan (c :: rest) [] failed = fullScan rest [] true := by
  simp [fullScan, hs, ht]

theorem fullScan_cons_close_match {c : Char} {t : bracket_t}
    (hs : bracket_state c = some CLOSE) (ht : bracket_type c = some t)
    (rest : List Char) (stk : List bracket_t) (failed : Bool) :
    fullScan (c :: rest) (t :: stk) failed = fullScan rest stk failed := by
  simp [fullScan, hs, ht]

theorem fullScan_cons_close_mismatch {c : Char} {t top : bracket_t}
    (hs : bracket_state c = some CLOSE) (ht : bracket_type c = some t)
    (hne : t ≠ top) (rest : List Char) (stk : List bracket_t) (failed : Bool) :
    fullScan (c :: rest) (top :: stk) failed = fullScan rest stk true := by
  simp [fullScan, hs, ht, hne]

theorem fullScan_cons_skip {c : Char}
    (hs : bracket_state c = none) (ht : bracket_type c = none)
    (rest : List Char) (stk : List bracket_t) (failed : Bool) :
    fullScan (c :: rest) stk failed = fullScan rest stk failed := by
  simp [fullScan, hs, ht]

/-- Once the full-scan reference has recorded a failure, its verdict is
`Invalid` regardless of the remaining characters. -/
theorem fullScan_failed : ∀ (cs : List Char) (stk : List bracket_t),
    fullScan cs stk true = Verdict.invalid := by
  intro cs
  induction cs with
  | nil => intro stk; rfl
  | cons c rest ih =>
    intro stk
    rcases classify_cases c with ⟨hs, ht⟩ | ⟨t, htv, hs, ht, hc⟩ | ⟨t, htv, hs, ht, hc⟩
    · rw [fullScan_cons_skip hs ht]
      exact ih stk
    · rw [fullScan_cons_open hs ht]
      exact ih (t :: stk)
    · cases stk with
      | nil =>
        rw [fullScan_cons_close_nil hs ht]
        exact ih []
      | cons top stk2 =>
        by_cases heq : t = top
        · subst heq
          rw [fullScan_cons_close_match hs ht]
          exact ih stk2
        · rw [fullScan_cons_close_mismatch hs ht heq]
          exact ih stk2

/-- The short-circuiting scan and the full-scan reference agree from any
not-yet-failed state. -/
theorem scan_eq_fullScan : ∀ (cs : List Char) (stk : List bracket_t),
    scan cs stk = fullScan cs stk false := by
  intro cs
  induction cs with
  | nil => intro stk; rfl
  | cons c rest ih =>
    intro stk
    rcases classify_cases c with ⟨hs, ht⟩ | ⟨t, htv, hs, ht, hc⟩ | ⟨t, htv, hs, ht, hc⟩
    · rw [fullScan_cons_skip hs ht, ← ih]
      unfold scan
      rw [scanStack_cons_skip hs ht]
    · rw [fullScan_cons_open hs ht, ← ih]
      unfold scan
      rw [scanStack_cons_open hs ht]
    · cases stk with
      | nil =>
        rw [fullScan_cons_close_nil hs ht, fullScan_failed]
        unfold scan
        rw [scanStack_cons_close_nil hs ht]
      | cons top stk2 =>
        by_cases heq : t = top
        · subst heq
          rw [fullScan_cons_close_match hs ht, ← ih]
          unfold scan
          rw [scanStack_cons_close_match hs ht]
        · rw [fullScan_cons_close_mismatch hs ht heq, fullScan_failed]
          unfold scan
          rw [scanStack_cons_close_mismatch hs ht heq]

theorem scanSteps_cons_open {c : Char} {t : bracket_t}
    (hs : bracket_state c = some OPEN) (ht : bracket_type c = some t)
    (rest : List Char) (stk : List bracket_t) :
    scanSteps (c :: rest) stk = scanSteps rest (t :: stk) + 1 := by
  simp [scanSteps, hs, ht]

theorem scanSteps_cons_close_nil {c : Char} {t : bracket_t}
    (hs : bracket_state c = some CLOSE) (ht : bracket_type c = some t)
    (rest : List Char) :
    scanSteps (c :: rest) [] = 1 := by
  simp [scanSteps, hs, ht]

theorem scanSteps_cons_close_match {c : Char} {t : bracket_t}
    (hs : bracket_state c = some CLOSE) (ht : bracket_type c = some t)
    (rest : List Char) (stk : List bracket_t) :
    scanSteps (c :: rest) (t :: stk) = scanSteps rest stk + 1 := by
  simp [scanSteps, hs, ht]

theorem scanSteps_cons_close_mismatch {c : Char} {t top : bracket_t}
    (hs : bracket_state c = some CLOSE) (ht : bracket_type c = some t)
    (hne : t ≠ top) (rest : List Char) (stk : List bracket_t) :
    scanSteps (c :: rest) (top :: stk) = 1 := by
  simp [scanSteps, hs, ht, hne]

theorem scanSteps_cons_skip {c : Char}
    (hs : bracket_state c = none) (ht : bracket_type c = none)
    (rest : List Char) (stk : List bracket_t) :
    scanSteps (c :: rest) stk = scanSteps rest stk + 1 := by
  simp [scanSteps, hs, ht]

/-- The loop examines at most as many characters as the input holds. -/
theorem scanSteps_le_length : ∀ (cs : List Char) (stk : List bracket_t),
    scanSteps cs stk ≤ cs.length := by
  intro cs
  induction cs with
  | nil => intro stk; exact Nat.le_refl 0
  | cons c rest ih =>
    intro stk
    rcases classify_cases c with ⟨hs, ht⟩ | ⟨t, htv, hs, ht, hc⟩ | ⟨t, htv, hs, ht, hc⟩
    · rw [scanSteps_cons_skip hs ht]
      have h2 := ih stk
      simp only [List.length_cons]
      omega
    · rw [scanSteps_cons_open hs ht]
      have h2 := ih (t :: stk)
      simp only [List.length_cons]
      omega
    · cases stk with
      | nil =>
        rw [scanSteps_cons_close_nil hs ht]
        simp only [List.length_cons]
        omega
      | cons top stk2 =>
        by_cases heq : t = top
        · subst heq
          rw [scanSteps_cons_close_match hs ht]
          have h2 := ih stk2
          simp only [List.length_cons]
          omega
        · rw [scanSteps_cons_close_mismatch hs ht heq]
          simp only [List.length_cons]
          omega

/-! ### Claim theorems -/

/-- C1: for an input made only of the six bracket glyphs, with `N` equal to
its length, the validator prints `Valid` iff the input is a balanced bracket
sequence (every closing bracket matches the innermost currently-open bracket
of the same type and no brackets remain open at the end). -/
theorem valid_iff_balanced (n : Nat) (s : List Char) (hn : n = s.length)
    (hg : ∀ c ∈ s, c ∈ bracketGlyphs) :
    run n s = Verdict.valid ↔ BalancedSeq s := by
  subst hn
  unfold run
  rw [List.take_length]
  constructor
  · intro h
    unfold scan at h
    cases hss : scanStack s [] with
    | none =>
      rw [hss] at h
      have hred : Verdict.invalid = Verdict.valid := h
      exact Verdict.noConfusion hred
    | some stk =>
      rw [hss] at h
      have hred : (if stk = [] then Verdict.valid else Verdict.invalid) = Verdict.valid := h
      by_cases hstk : stk = []
      · subst hstk
        exact scanStack_complete s.length s le_rfl hg hss
      · rw [if_neg hstk] at hred
        exact Verdict.noConfusion hred
  · intro hb
    unfold scan
    rw [balanced_scanStack hb]
    rfl

/-- Witness for C1 at the spec's example `"{[()()]}"`. -/
theorem valid_iff_balanced_witness :
    ((8 = (['{', '[', '(', ')', '(', ')', ']', '}'] : List Char).length)
      ∧ ∀ c ∈ (['{', '[', '(', ')', '(', ')', ']', '}'] : List Char), c ∈ bracketGlyphs)
    ∧ (run 8 ['{', '[', '(', ')', '(', ')', ']', '}'] = Verdict.valid
        ↔ BalancedSeq ['{', '[', '(', ')', '(', ')', ']', '}']) :=
  ⟨⟨by decide, by decide⟩,
    valid_iff_balanced 8 ['{', '[', '(', ')', '(', ')', ']', '}'] (by decide) (by decide)⟩

/-- C2: when the current character is a closing bracket and the stack is
empty, or the stack's top type differs from the closing bracket's type, the
result is `Invalid` and scanning stops immediately: the outcome is the same
for every tail `rest`, and exactly one further character was examined. -/
theorem close_mismatch_short_circuit (c : Char) (t : bracket_t) (rest : List Char)
    (stk : List bracket_t) (hs : bracket_state c = some CLOSE)
    (ht : bracket_type c = some t)
    (hfail : stk = [] ∨ ∃ top stk2, stk = top :: stk2 ∧ t ≠ top) :
    scanStack (c :: rest) stk = none ∧ scan (c :: rest) stk = Verdict.invalid
      ∧ scanSteps (c :: rest) stk = 1 := by
  rcases hfail with hnil | ⟨top, stk2, hcons, hne⟩
  · subst hnil
    refine ⟨scanStack_cons_close_nil hs ht rest, ?_, scanSteps_cons_close_nil hs ht rest⟩
    unfold scan
    rw [scanStack_cons_close_nil hs ht]
  · subst hcons
    refine ⟨scanStack_cons_close_mismatch hs ht hne rest stk2, ?_,
      scanSteps_cons_close_mismatch hs ht hne rest stk2⟩
    unfold scan
    rw [scanStack_cons_close_mismatch hs ht hne]

/-- Witness for C2: a lone `)` on an empty stack short-circuits. -/
theorem close_mismatch_short_circuit_witness :
    (bracket_state ')' = some CLOSE ∧ bracket_type ')' = some ROUND
      ∧ (([] : List bracket_t) = []
          ∨ ∃ top stk2, ([] : List bracket_t) = top :: stk2 ∧ ROUND ≠ top))
    ∧ (scanStack [')', '('] [] = none ∧ scan [')', '('] [] = Verdict.invalid
        ∧ scanSteps [')', '('] [] = 1) :=
  ⟨⟨by decide, by decide, Or.inl rfl⟩,
    close_mismatch_short_circuit ')' ROUND ['('] [] (by decide) (by decide) (Or.inl rfl)⟩

/-- C3: when the scan reaches the end of the input without short-circuiting
(final stack `stk`), the verdict is `Valid` exactly when `stk` is empty;
in particular the input `"(["` yields `Invalid`. -/
theorem end_of_scan_verdict (cs : List Char) (stk0 stk : List bracket_t)
    (h : scanStack cs stk0 = some stk) :
    scan cs stk0 = (if stk = [] then Verdict.valid else Verdict.invalid)
      ∧ run 2 ['(', '['] = Verdict.invalid := by
  constructor
  · unfold scan
    rw [h]
  · decide

/-- Witness for C3 at the input `"(["`. -/
theorem end_of_scan_verdict_witness :
    scanStack ['(', '['] [] = some [SQUARE, ROUND]
    ∧ (scan ['(', '['] []
          = (if [SQUARE, ROUND] = ([] : List bracket_t) then Verdict.valid
            else Verdict.invalid)
        ∧ run 2 ['(', '['] = Verdict.invalid) :=
  ⟨by decide, end_of_scan_verdict ['(', '['] [] [SQUARE, ROUND] (by decide)⟩

/-- C4: for the empty input string (`N = 0`) the verdict is `Valid`. -/
theorem empty_input_valid (s : List Char) : run 0 s = Verdict.valid := rfl

/-- C5: for glyph-only input, the scan reaches the end with final stack `stk`
exactly when `stk` lists the types of the currently-unclosed brackets,
earliest-opened at the bottom and most-recently-opened at the top (the head),
so the top entry is the innermost currently-open bracket's type. -/
theorem stack_tracks_unclosed (p : List Char) (stk : List bracket_t)
    (hg : ∀ c ∈ p, c ∈ bracketGlyphs) :
    scanStack p [] = some stk ↔ Unclosed p stk :=
  ⟨fun h => scanStack_to_unclosed p.length p stk le_rfl hg h,
    fun h => unclosed_scanStack h⟩

/-- Witness for C5 at the prefix `"(["` whose unclosed types are round then
square, square on top. -/
theorem stack_tracks_unclosed_witness :
    (∀ c ∈ (['(', '['] : List Char), c ∈ bracketGlyphs)
    ∧ (scanStack ['(', '['] [] = some [SQUARE, ROUND] ↔ Unclosed ['(', '['] [SQUARE, ROUND]) :=
  ⟨by decide, stack_tracks_unclosed ['(', '['] [SQUARE, ROUND] (by decide)⟩

/-- C6: the short-circuiting validator and the non-short-circuiting full-scan
reference produce the same final verdict on every input. -/
theorem shortcircuit_eq_fullscan (n : Nat) (s : List Char) : run n s = fullRun n s :=
  scan_eq_fullScan (s.take n) []

/-- C7: the validator is deterministic and stateless across invocations:
two runs on the same length and the same string produce the same output. -/
theorem validator_deterministic (n1 n2 : Nat) (s1 s2 : List Char)
    (hn : n1 = n2) (hs : s1 = s2) : run n1 s1 = run n2 s2 := by
  subst hn
  subst hs
  rfl

/-- Witness for C7: two invocations on `"()"`. -/
theorem validator_deterministic_witness :
    ((2 : Nat) = 2 ∧ (['(', ')'] : List Char) = ['(', ')'])
    ∧ run 2 ['(', ')'] = run 2 ['(', ')'] :=
  ⟨⟨rfl, rfl⟩, validator_deterministic 2 2 ['(', ')'] ['(', ')'] rfl rfl⟩

/-- C8: the scan always terminates: it performs at most `N` loop iterations
(the loop is bounded by the input length) and produces exactly one of the two
verdicts. -/
theorem scan_bounded_terminates (n : Nat) (s : List Char) :
    scanSteps (s.take n) [] ≤ n
      ∧ (run n s = Verdict.valid ∨ run n s = Verdict.invalid)
      ∧ ¬(run n s = Verdict.valid ∧ run n s = Verdict.invalid) := by
  refine ⟨?_, ?_, ?_⟩
  · have h1 := scanSteps_le_length (s.take n) []
    have h2 : (s.take n).length ≤ n := by
      rw [List.length_take]
      exact Nat.min_le_left _ _
    omega
  · cases h : run n s
    · exact Or.inl rfl
    · exact Or.inr rfl
  · rintro ⟨h1, h2⟩
    rw [h1] at h2
    exact Verdict.noConfusion h2

/-- C9: on each of the six bracket glyphs both classifiers return a defined
value — the correct type for the glyph's pair and the correct open/close
role — so under this precondition the fall-through path (`none`) is
unreachable. -/
theorem classifier_total_on_glyphs (c : Char) (h : c ∈ bracketGlyphs) :
    ((bracket_type c).isSome ∧ (bracket_state c).isSome)
    ∧ (bracket_type c = some CURLY ↔ (c = '{' ∨ c = '}'))
    ∧ (bracket_type c = some SQUARE ↔ (c = '[' ∨ c = ']'))
    ∧ (bracket_type c = some ROUND ↔ (c = '(' ∨ c = ')'))
    ∧ (bracket_state c = some OPEN ↔ (c = '{' ∨ c = '(' ∨ c = '['))
    ∧ (bracket_state c = some CLOSE ↔ (c = '}' ∨ c = ')' ∨ c = ']')) := by
  fin_cases h <;> exact ⟨by decide, by decide, by decide, by decide, by decide, by decide⟩

/-- Witness for C9 at the glyph `{`. -/
theorem classifier_total_on_glyphs_witness :
    ('{' ∈ bracketGlyphs)
    ∧ (((bracket_type '{').isSome ∧ (bracket_state '{').isSome)
      ∧ (bracket_type '{' = some CURLY ↔ ('{' = '{' ∨ '{' = '}'))
      ∧ (bracket_type '{' = some SQUARE ↔ ('{' = '[' ∨ '{' = ']'))
      ∧ (bracket_type '{' = some ROUND ↔ ('{' = '(' ∨ '{' = ')'))
      ∧ (bracket_state '{' = some OPEN ↔ ('{' = '{' ∨ '{' = '(' ∨ '{' = '['))
      ∧ (bracket_state '{' = some CLOSE ↔ ('{' = '}' ∨ '{' = ')' ∨ '{' = ']'))) :=
  ⟨by decide, classifier_total_on_glyphs '{' (by decide)⟩

/-- C10: the verdict depends only on the first `N` characters: inputs with
the same `N` whose strings agree on their first `N` characters produce the
same output, and `run` examines only `brackets.take length`, never positions
`N` and beyond. -/
theorem verdict_depends_on_first_n (n : Nat) (s t : List Char)
    (h : s.take n = t.take n) : run n s = run n t := by
  unfold run
  rw [h]

/-- Witness for C10: two inputs agreeing on their first two characters but
differing at position 2. -/
theorem verdict_depends_on_first_n_witness :
    (['(', ')', '('] : List Char).take 2 = (['(', ')', ']'] : List Char).take 2
    ∧ run 2 ['(', ')', '('] = run 2 ['(', ')', ']'] :=
  ⟨by decide, verdict_depends_on_first_n 2 ['(', ')', '('] ['(', ')', ']'] (by decide)⟩
